import Mathlib

/-!
Shallow embedding of the AutoMatcher matching core (src/data_processor.py)
and proofs about the frozen claims on its specification.

Python strings are modelled as `List Char`; Python floats (BM25 scores and
normalized similarities) are modelled as exact rationals `ℚ`, so the
algebraic identities of the scoring pipeline are stated exactly.
-/

namespace AutoMatcher

/-- Python strings, modelled as lists of Unicode characters. -/
abbrev Str := List Char

/-- Python `str.isspace` restricted to the ASCII whitespace characters
(space, tab, newline, carriage return, vertical tab, form feed); the
program's data never contains other Unicode space characters. -/
def pyIsSpace (c : Char) : Bool :=
  c = ' ' || c = '\t' || c = '\n' || c = '\r' || c = Char.ofNat 11 || c = Char.ofNat 12

/-- Lowercasing table of Python `str.lower`, restricted to the Basic Latin
and Cyrillic alphabets that the program's data uses: the 26 ASCII letters,
the 32 Cyrillic letters А..Я, and Ё. Every other character is left
unchanged by `lowerChar`. -/
def lowerPairs : List (Char × Char) :=
  [('A', 'a'), ('B', 'b'), ('C', 'c'), ('D', 'd'), ('E', 'e'), ('F', 'f'),
   ('G', 'g'), ('H', 'h'), ('I', 'i'), ('J', 'j'), ('K', 'k'), ('L', 'l'),
   ('M', 'm'), ('N', 'n'), ('O', 'o'), ('P', 'p'), ('Q', 'q'), ('R', 'r'),
   ('S', 's'), ('T', 't'), ('U', 'u'), ('V', 'v'), ('W', 'w'), ('X', 'x'),
   ('Y', 'y'), ('Z', 'z'),
   ('А', 'а'), ('Б', 'б'), ('В', 'в'), ('Г', 'г'), ('Д', 'д'), ('Е', 'е'),
   ('Ж', 'ж'), ('З', 'з'), ('И', 'и'), ('Й', 'й'), ('К', 'к'), ('Л', 'л'),
   ('М', 'м'), ('Н', 'н'), ('О', 'о'), ('П', 'п'), ('Р', 'р'), ('С', 'с'),
   ('Т', 'т'), ('У', 'у'), ('Ф', 'ф'), ('Х', 'х'), ('Ц', 'ц'), ('Ч', 'ч'),
   ('Ш', 'ш'), ('Щ', 'щ'), ('Ъ', 'ъ'), ('Ы', 'ы'), ('Ь', 'ь'), ('Э', 'э'),
   ('Ю', 'ю'), ('Я', 'я'), ('Ё', 'ё')]

/-- Per-character lowering, from `lowerPairs`. -/
def lowerChar (c : Char) : Char := (lowerPairs.lookup c).getD c

/-- Cyrillic letters, upper and lower case: Python `str.isalnum` is true on
them while Lean's ASCII `Char.isAlphanum` is not. -/
def cyrLetters : List Char :=
  ['а', 'б', 'в', 'г', 'д', 'е', 'ж', 'з', 'и', 'й', 'к', 'л', 'м', 'н',
   'о', 'п', 'р', 'с', 'т', 'у', 'ф', 'х', 'ц', 'ч', 'ш', 'щ', 'ъ', 'ы',
   'ь', 'э', 'ю', 'я', 'ё',
   'А', 'Б', 'В', 'Г', 'Д', 'Е', 'Ж', 'З', 'И', 'Й', 'К', 'Л', 'М', 'Н',
   'О', 'П', 'Р', 'С', 'Т', 'У', 'Ф', 'Х', 'Ц', 'Ч', 'Ш', 'Щ', 'Ъ', 'Ы',
   'Ь', 'Э', 'Ю', 'Я', 'Ё']

/-- Python `char.isalnum()` on the Latin/Cyrillic/digit repertoire the
program handles. -/
def pyIsAlnum (c : Char) : Bool := c.isAlphanum || cyrLetters.contains c

/-- The character filter of `preprocess_text` line 209:
`char.isalnum() or char.isspace()`. -/
def keepChar (c : Char) : Bool := pyIsAlnum c || pyIsSpace c

/-- Scanning loop of Python `s.replace(old, new)` for non-empty `old`:
scan left to right, replace each non-overlapping occurrence, never
re-scanning the replacement text just inserted. The fuel argument makes the
recursion structural; each step consumes at least one character, so fuel
`s.length` is enough and the `0` case is never reached from `pyReplace`. -/
def pyReplaceAux (old new : Str) : Nat → Str → Str
  | _, [] => []
  | 0, s => s
  | Nat.succ fuel, c :: rest =>
    if old.isPrefixOf (c :: rest) then
      new ++ pyReplaceAux old new fuel (rest.drop (old.length - 1))
    else
      c :: pyReplaceAux old new fuel rest

/-- Python `s.replace(old, new)`; the program only calls it with the
non-empty keys of the abbreviation table. -/
def pyReplace (old new s : Str) : Str :=
  if old = [] then s else pyReplaceAux old new s.length s

/-- The fixed abbreviation table `self.replacements` of
`DataProcessor.__init__` (src/data_processor.py lines 20-26), in its
declared (insertion) order. -/
def replacements : List (Str × Str) :=
  [("перманентный".data, "перм".data), ("маркер".data, "марк".data),
   ("мультифора".data, "файл".data), ("грузоподъемностью".data, "груз".data),
   ("пластиковый".data, "пласт".data), ("металлический".data, "мет".data),
   ("тн".data, "тонн".data), ("корректирующее".data, "корр".data),
   ("самоклеящаяся".data, "самокл".data), ("гибкая".data, "гибк".data),
   ("регистратор".data, "регистр".data), ("кальцинированная".data, "кальц".data),
   ("гост".data, "стандарт".data), ("ассорти".data, "разные цвета".data),
   ("арочный".data, "дуга".data)]

/-- The replacement loop of `preprocess_text` (lines 212-213): fold the
table in order, each substitution seeing the previous result. -/
def applyReplacements (s : Str) : Str :=
  replacements.foldl (fun acc kv => pyReplace kv.1 kv.2 acc) s

/-- `DataProcessor.preprocess_text` (src/data_processor.py lines 202-214):
lowercase, keep only alphanumeric and whitespace characters, then apply the
abbreviation table in order. -/
def preprocess (s : Str) : Str :=
  applyReplacements ((s.map lowerChar).filter keepChar)

/-- Python `str.split()` with no argument: split on runs of whitespace,
dropping empty pieces. Accumulator `cur` holds the current word reversed. -/
def splitWsAux (cur : Str) : Str → List Str
  | [] => if cur = [] then [] else [cur.reverse]
  | c :: rest =>
    if pyIsSpace c then
      if cur = [] then splitWsAux [] rest else cur.reverse :: splitWsAux [] rest
    else
      splitWsAux (c :: cur) rest

/-- Python `str.split()` with no argument. -/
def splitWs (s : Str) : List Str := splitWsAux [] s

/-- Python `sep.join(parts)`. -/
def joinSep (sep : Str) : List Str → Str
  | [] => []
  | [x] => x
  | x :: y :: xs => x ++ sep ++ joinSep sep (y :: xs)

/-- One catalog row of `nomenclature_df`, after `load_nomenclature_data`
has filled the required columns (missing flag columns default to "Нет").
Field names follow the dataframe columns `Номенклатура`, `Код`,
`Оформлено`, `ТоварПроизводителя`, `ОсновнойАссортимент`. -/
structure Entry where
  name : Str
  code : Str
  oformleno : Str
  tovarProizvoditelya : Str
  osnovnoyAssortiment : Str
deriving DecidableEq, Repr

/-- One result record appended by the selection loop of
`process_grouped_requests` (lines 156-162): keys `Запрос`, `Номенклатура`,
`Код`, `Сходство`, `Статус`. -/
structure MatchRes where
  zapros : Str
  nomenklatura : Str
  kod : Str
  skhodstvo : ℚ
  status : Str
deriving DecidableEq, Repr

/-- `DataProcessor.get_status` (lines 277-288): the comma-joined labels of
the flags that equal "Да", or a dash when none is set. -/
def getStatus (e : Entry) : Str :=
  let status : List Str :=
    (if e.oformleno = "Да".data then ["Оформлено".data] else []) ++
    (if e.tovarProizvoditelya = "Да".data then ["Товар Производителя".data] else []) ++
    (if e.osnovnoyAssortiment = "Да".data then ["Основной Ассортимент".data] else [])
  if status = [] then "—".data else joinSep ", ".data status

/-- Python `<` on strings: lexicographic comparison by code point. -/
def strLt : Str → Str → Bool
  | [], [] => false
  | [], _ :: _ => true
  | _ :: _, [] => false
  | a :: as, b :: bs => if a = b then strLt as bs else decide (a < b)

/-- Python `<=` on strings. -/
def strLe (a b : Str) : Bool := strLt a b || decide (a = b)

/-- A scored candidate: a catalog entry paired with the value of the
`similarity` column of `temp_df` (lines 145-146). -/
abbrev Cand := Entry × ℚ

/-- Comparator of `temp_df.sort_values([priority, 'similarity'],
ascending=[False, False])` (lines 147-150): `candBle prio a b` holds when
row `a` may be placed before row `b` — strictly greater priority-column
string (descending code-point order), or equal priority strings and
similarity of `a` at least that of `b`. pandas' multi-key sort is a stable
lexsort, so ties on both keys keep the original corpus order, which the
stable insertion sort below reproduces. -/
def candBle (prio : Entry → Str) (a b : Cand) : Bool :=
  if prio a.1 = prio b.1 then decide (b.2 ≤ a.2) else strLt (prio b.1) (prio a.1)

/-- The sort of lines 147-150, as a stable sort with `candBle`. -/
def sortCands (prio : Entry → Str) (cands : List Cand) : List Cand :=
  List.insertionSort (fun a b => candBle prio a b = true) cands

/-- Result record built for one selected row (lines 156-162). -/
def mkRes (groupKey : Str) (c : Cand) : MatchRes :=
  { zapros := groupKey, nomenklatura := c.1.name, kod := c.1.code,
    skhodstvo := c.2, status := getStatus c.1 }

/-- Selection loop of lines 153-165: walk the (already truncated) sorted
candidates, skip codes already in `seen` (`unique_codes`), append a result
otherwise, and break as soon as the set of seen codes reaches `topN`
(the source checks `len(unique_codes) >= top_n` right after adding). -/
def selectLoop (groupKey : Str) (topN : Nat) (seen : List Str) : List Cand → List MatchRes
  | [] => []
  | c :: rest =>
    if c.1.code ∈ seen then selectLoop groupKey topN seen rest
    else
      if topN ≤ seen.length + 1 then [mkRes groupKey c]
      else mkRes groupKey c :: selectLoop groupKey topN (c.1.code :: seen) rest

/-- Python `min` over a non-empty list (line 131); `0` for the empty list,
which the program never reaches because the corpus guard fires first. -/
def listMin : List ℚ → ℚ
  | [] => 0
  | x :: xs => xs.foldl min x

/-- Python `max` over a non-empty list (line 131). -/
def listMax : List ℚ → ℚ
  | [] => 0
  | x :: xs => xs.foldl max x

/-- Score normalization of lines 131-137: min-max scale to 0-100, with the
degenerate all-equal case mapped to all-100 when the common value is
positive and all-0 otherwise. -/
def normalizeScores (scores : List ℚ) : List ℚ :=
  let lo := listMin scores
  let hi := listMax scores
  if hi = lo then
    if 0 < hi then List.replicate scores.length 100 else List.replicate scores.length 0
  else
    scores.map (fun s => (s - lo) / (hi - lo) * 100)

/-- Prefix-bonus loop of lines 139-142: entries whose processed name starts
with the space-joined processed query get +5, capped at 100. `normalized`
and `processedNames` always have the same length (one per entry). -/
def adjustScores (processedNames : List Str) (joined : Str) (normalized : List ℚ) : List ℚ :=
  List.zipWith
    (fun n name => if joined.isPrefixOf name then min (n + 5) 100 else n)
    normalized processedNames

/-- Modelled from the spec: `RelevanceIndex.score` (spec section 4.2). The
implementation delegates to the external `rank_bm25.BM25Okapi`, whose
source is not under src/; per the spec a BM25-class score of a query
against an entry is the sum, over the query's tokens, of a per-term
contribution (term saturation and document-length normalization are folded
into the abstract `contrib`), and terms absent from the corpus contribute
zero. One score per corpus entry, in entry order. -/
def bm25GetScores (contrib : Str → List Str → ℚ) (tokenizedCorpus : List (List Str))
    (query : List Str) : List ℚ :=
  tokenizedCorpus.map (fun doc => (query.map (fun t => contrib t doc)).sum)

/-- Deduplication keeping first occurrences, relative order preserved;
`seen` accumulates the values already kept. -/
def dedupFirstAux {α : Type} [DecidableEq α] (seen : List α) : List α → List α
  | [] => []
  | x :: xs =>
    if x ∈ seen then dedupFirstAux seen xs else x :: dedupFirstAux (x :: seen) xs

/-- Deduplication keeping the first occurrence of each value. -/
def dedupFirst {α : Type} [DecidableEq α] (l : List α) : List α := dedupFirstAux [] l

/-- Python `parts.index(a)`: the index of the first occurrence of `a` in
`parts` (the sort key of line 126; the length if absent, which the program
never hits because the sorted values all come from `parts`). -/
def firstIdx (a : Str) : List Str → Nat
  | [] => 0
  | b :: rest => if a = b then 0 else firstIdx a rest + 1

/-- Key order of Python `sorted(set(query_parts), key=query_parts.index)`
(line 126): ascending first index in `query_parts`. -/
def idxLe (parts : List Str) (a b : Str) : Prop :=
  firstIdx a parts ≤ firstIdx b parts

instance (parts : List Str) : DecidableRel (idxLe parts) :=
  fun a b => Nat.decLe (firstIdx a parts) (firstIdx b parts)

/-- Python `sorted(elems, key=parts.index)`: a stable ascending sort by
first index. -/
def pySortedByIndex (parts elems : List Str) : List Str :=
  List.insertionSort (idxLe parts) elems

/-- Line 126, `' '.join(sorted(set(query_parts), key=query_parts.index))`.
Python iterates a `set` in an unspecified order; it is modelled here by the
first-occurrence enumeration `dedupFirst`, and the claim about this line is
proved for every enumeration of the set, so the choice is immaterial. -/
def uniqueQueryOfParts (parts : List Str) : Str :=
  joinSep " ".data (pySortedByIndex parts (dedupFirst parts))

/-- One request row, already projected to the selected columns in their
selected order; `none` is a missing value (`NaN`). -/
abbrev Row := List (Option Str)

/-- `str(value)` as used by `.astype(str)` on line 104: `NaN` prints as
"nan", strings are unchanged. -/
def optToStr : Option Str → Str
  | none => "nan".data
  | some s => s

/-- The `combined_key` of line 104: selected-column values stringified and
joined with " | ". -/
def combinedKey (row : Row) : Str := joinSep " | ".data (row.map optToStr)

/-- Group keys in the order `pandas.groupby` iterates them: distinct
`combined_key` values sorted ascending (groupby's default `sort=True`). -/
def groupKeys (rows : List Row) : List Str :=
  List.insertionSort (fun a b => strLe a b = true) (dedupFirst (rows.map combinedKey))

/-- Query-part collection of lines 120-123: for each row of the group in
order, the non-missing selected-column values in column order. -/
def collectParts (groupRows : List Row) : List Str :=
  (groupRows.map (fun row => row.filterMap id)).flatten

/-- Per-group body of lines 117-165, starting from the group's already
assembled query text: preprocess and tokenize the query, score the corpus,
normalize, apply the prefix bonus, sort with the priority column, truncate
to `2 * topN`, and run the dedup selection. -/
def groupBodyFromQuery (contrib : Str → List Str → ℚ) (entries : List Entry)
    (processedNames : List Str) (tokenized : List (List Str))
    (prio : Entry → Str) (topN : Nat) (groupKey : Str) (queryText : Str) : List MatchRes :=
  let processedQuery := splitWs (preprocess queryText)
  let scores := bm25GetScores contrib tokenized processedQuery
  let normalized := normalizeScores scores
  let adjusted := adjustScores processedNames (joinSep " ".data processedQuery) normalized
  let sorted := sortCands prio (entries.zip adjusted)
  selectLoop groupKey topN [] (sorted.take (topN * 2))

/-- Per-group body of lines 117-165: build the unique query from the
group's rows, then run `groupBodyFromQuery`. -/
def groupBody (contrib : Str → List Str → ℚ) (entries : List Entry)
    (processedNames : List Str) (tokenized : List (List Str))
    (prio : Entry → Str) (topN : Nat) (groupKey : Str) (groupRows : List Row) : List MatchRes :=
  groupBodyFromQuery contrib entries processedNames tokenized prio topN groupKey
    (uniqueQueryOfParts (collectParts groupRows))

/-- Loaded state of a `DataProcessor`: `None` dataframes mean the data has
not been loaded. Request rows are kept projected to the selected columns. -/
structure Processor where
  nomenclature : Option (List Entry)
  requests : Option (List Row)

/-- Exceptions `process_grouped_requests` can raise, plus the precondition
error the specification asks for. `dataNotLoaded` is the
`ValueError("Данные не загружены")` of line 101; `zeroDivision` is the
`ZeroDivisionError` raised inside `BM25Okapi.__init__` (the external
`rank_bm25` divides the total token count by the corpus size) when the
corpus is empty; `emptyCorpus` is the spec's
`PreconditionError("empty corpus")`, which no code path constructs. -/
inductive PyError where
  | dataNotLoaded
  | zeroDivision
  | emptyCorpus
deriving DecidableEq, Repr

/-- `DataProcessor.process_grouped_requests` (lines 90-170). The
`cancelled` argument models the host's cancellation signal (`cancel_flag`
set by the GUI's cancel button) as a predicate "is the signal set when
group `i` is about to be processed"; the body of
`process_grouped_requests` never consults it — unlike the sibling
`process_data` (line 234) — so the parameter is unused. The BM25 index
construction on an empty corpus is modelled from the spec (the build is
impossible: `rank_bm25` fails with a `ZeroDivisionError` before any group
is processed). -/
def processGrouped (contrib : Str → List Str → ℚ) (P : Processor)
    (prio : Entry → Str) (topN : Nat) (cancelled : Nat → Bool) :
    Except PyError (List MatchRes) :=
  match P.requests, P.nomenclature with
  | none, _ => .error .dataNotLoaded
  | some _, none => .error .dataNotLoaded
  | some rows, some entries =>
    if entries = [] then .error .zeroDivision
    else
      let processedNames := entries.map (fun e => preprocess e.name)
      let tokenized := processedNames.map splitWs
      let keys := groupKeys rows
      .ok ((keys.map (fun key =>
        groupBody contrib entries processedNames tokenized prio topN key
          (rows.filter (fun r => combinedKey r = key)))).flatten)

instance {ε α : Type} [DecidableEq ε] [DecidableEq α] : DecidableEq (Except ε α) := fun a b =>
  match a, b with
  | .ok x, .ok y => decidable_of_iff (x = y) (by simp)
  | .error x, .error y => decidable_of_iff (x = y) (by simp)
  | .ok _, .error _ => isFalse (by simp)
  | .error _, .ok _ => isFalse (by simp)

/-! Theorems about the claims. -/

/-- C1: the claim says the sort of lines 147-150 puts entries whose
priority flag is "Да" before entries with "Нет". Evaluating that sort on a
"Нет" entry followed by a "Да" entry with strictly higher similarity shows
the code keeps the "Нет" entry first: `ascending=False` on the priority
column is a descending code-point comparison of the strings, and
"Нет" (first letter U+041D) is greater than "Да" (first letter U+0414), so
"Нет" entries sort before "Да" entries — the opposite of the claim. -/
theorem claim1_net_sorts_before_da :
    sortCands Entry.oformleno
      [({ name := "a".data, code := "1".data, oformleno := "Нет".data,
          tovarProizvoditelya := "Нет".data, osnovnoyAssortiment := "Нет".data }, 90),
       ({ name := "b".data, code := "2".data, oformleno := "Да".data,
          tovarProizvoditelya := "Нет".data, osnovnoyAssortiment := "Нет".data }, 95)]
    = [({ name := "a".data, code := "1".data, oformleno := "Нет".data,
          tovarProizvoditelya := "Нет".data, osnovnoyAssortiment := "Нет".data }, 90),
       ({ name := "b".data, code := "2".data, oformleno := "Да".data,
          tovarProizvoditelya := "Нет".data, osnovnoyAssortiment := "Нет".data }, 95)] := by
  decide

/-- C2: the claim says a cancellation signal set after `k` of `n` groups
makes `process_grouped_requests` return only the first `k` groups' results.
The body of `process_grouped_requests` never polls the flag (only the
sibling `process_data` does), so first, the returned value does not depend
on the cancellation signal at all; second, a run with two groups ("!" and
"?") and the signal set from group index 1 onwards still returns a result
for each of the two groups, not only for the first. -/
theorem claim2_cancellation_ignored :
    (∀ (contrib : Str → List Str → ℚ) (P : Processor) (prio : Entry → Str) (topN : Nat)
        (c c' : Nat → Bool),
        processGrouped contrib P prio topN c = processGrouped contrib P prio topN c') ∧
    Except.map (List.map MatchRes.zapros)
      (processGrouped (fun _ _ => 1)
        { nomenclature := some [{ name := "a".data, code := "1".data, oformleno := "Нет".data,
                                  tovarProizvoditelya := "Нет".data,
                                  osnovnoyAssortiment := "Нет".data }],
          requests := some [[some "!".data], [some "?".data]] }
        Entry.oformleno 1 (fun i => decide (1 ≤ i))) = .ok ["!".data, "?".data] :=
  ⟨fun _ _ _ _ _ _ => rfl, by decide⟩

/-- C3: the claim says an empty catalog makes `process_grouped_requests`
fail with a precondition error identifying an empty corpus. Evaluating the
run on a zero-entry catalog shows it fails with the index builder's
division-by-zero instead (`BM25Okapi.__init__` divides the token count by
the corpus size), and that error is not the empty-corpus precondition
error the claim demands; no code path constructs such an error. -/
theorem claim3_empty_corpus_division_error :
    processGrouped (fun _ _ => 1)
      { nomenclature := some [], requests := some [[some "a".data]] }
      Entry.oformleno 1 (fun _ => false) = .error .zeroDivision ∧
    PyError.zeroDivision ≠ PyError.emptyCorpus := by
  exact ⟨rfl, by decide⟩

/-- C4: score normalization. With `lo = min(scores)` and `hi = max(scores)`
over a non-empty score list: if `hi = lo` every normalized score is 100
when `hi > 0` and 0 otherwise; if `hi ≠ lo` the score at index `i` maps to
`(s - lo) / (hi - lo) * 100`, exactly as lines 131-137 compute. -/
theorem claim4_normalization_formula (scores : List ℚ) (h : scores ≠ []) :
    (listMax scores = listMin scores →
      normalizeScores scores =
        if 0 < listMax scores then List.replicate scores.length (100 : ℚ)
        else List.replicate scores.length 0) ∧
    (listMax scores ≠ listMin scores →
      ∀ i, i < scores.length →
        (normalizeScores scores).getD i 0 =
          (scores.getD i 0 - listMin scores) / (listMax scores - listMin scores) * 100) := by
  refine ⟨fun heq => ?_, fun hne i hi => ?_⟩
  · simp only [normalizeScores]
    rw [if_pos heq]
  · simp only [normalizeScores]
    rw [if_neg hne]
    rw [List.getD_eq_getElem?_getD, List.getElem?_map, List.getElem?_eq_getElem hi,
      List.getD_eq_getElem?_getD, List.getElem?_eq_getElem hi]
    rfl

/-- C4 witness: the theorem applied to the concrete scores `[1, 3]` at
index 1. -/
theorem claim4_normalization_witness :
    (normalizeScores [(1 : ℚ), 3]).getD 1 0 =
      (([(1 : ℚ), 3]).getD 1 0 - listMin [(1 : ℚ), 3]) /
        (listMax [(1 : ℚ), 3] - listMin [(1 : ℚ), 3]) * 100 :=
  (claim4_normalization_formula [(1 : ℚ), 3] (by decide)).2 (by decide) 1 (by decide)

/-- Helper: the selection loop emits results built from a sublist of its
input candidates, in input order. -/
theorem selectLoop_sublist (groupKey : Str) (topN : Nat) :
    ∀ (seen : List Str) (l : List Cand),
      List.Sublist (selectLoop groupKey topN seen l) (l.map (mkRes groupKey)) := by
  intro seen l
  induction l generalizing seen with
  | nil => simp [selectLoop]
  | cons c rest ih =>
    simp only [selectLoop, List.map_cons]
    split
    · exact (ih seen).cons _
    · split
      · exact (List.nil_sublist _).cons₂ _
      · exact (ih _).cons₂ _

/-- Helper: the selection loop never emits a code twice, and never emits a
code it has already seen. -/
theorem selectLoop_codes_nodup (groupKey : Str) (topN : Nat) :
    ∀ (seen : List Str) (l : List Cand),
      ((selectLoop groupKey topN seen l).map MatchRes.kod).Nodup ∧
        ∀ r ∈ selectLoop groupKey topN seen l, r.kod ∉ seen := by
  intro seen l
  induction l generalizing seen with
  | nil => simp [selectLoop]
  | cons c rest ih =>
    simp only [selectLoop]
    split
    · exact ih seen
    · rename_i hc
      split
      · refine ⟨by simp, ?_⟩
        intro r hr
        rw [List.mem_singleton] at hr
        subst hr
        exact hc
      · refine ⟨?_, ?_⟩
        · rw [List.map_cons, List.nodup_cons]
          refine ⟨?_, (ih (c.1.code :: seen)).1⟩
          intro hmem
          obtain ⟨r, hr, hkod⟩ := List.mem_map.mp hmem
          exact (ih (c.1.code :: seen)).2 r hr (hkod ▸ List.mem_cons_self _ _)
        · intro r hr
          rcases List.mem_cons.mp hr with h | h
          · subst h
            exact hc
          · exact fun hs =>
              (ih (c.1.code :: seen)).2 r h (List.mem_cons_of_mem _ hs)

/-- Helper: while fewer than `topN` codes have been seen, the selection
loop emits at most the remaining budget. -/
theorem selectLoop_length (groupKey : Str) (topN : Nat) :
    ∀ (seen : List Str) (l : List Cand), seen.length < topN →
      (selectLoop groupKey topN seen l).length ≤ topN - seen.length := by
  intro seen l
  induction l generalizing seen with
  | nil => simp [selectLoop]
  | cons c rest ih =>
    intro hlt
    simp only [selectLoop]
    split
    · exact ih seen hlt
    · split
      · rename_i hbreak
        simp only [List.length_singleton]
        omega
      · rename_i hcont
        have h1 : (c.1.code :: seen).length < topN := by
          simp only [List.length_cons]
          omega
        have := ih (c.1.code :: seen) h1
        simp only [List.length_cons] at this ⊢
        omega

/-- C5: for every query, the selection step emits no two results with the
same entry code, at most `topN` results, results drawn only (and in order)
from the top `2 * topN` sorted candidates, and never more results than
there are distinct codes in that window — so the result is simply shorter
when the window holds fewer than `topN` distinct codes, with no error. -/
theorem claim5_selection_dedup_topn (groupKey : Str) (topN : Nat) (prio : Entry → Str)
    (cands : List Cand) :
    ((selectLoop groupKey topN [] ((sortCands prio cands).take (topN * 2))).map
        MatchRes.kod).Nodup ∧
    (selectLoop groupKey topN [] ((sortCands prio cands).take (topN * 2))).length ≤ topN ∧
    List.Sublist (selectLoop groupKey topN [] ((sortCands prio cands).take (topN * 2)))
      (((sortCands prio cands).take (topN * 2)).map (mkRes groupKey)) ∧
    (selectLoop groupKey topN [] ((sortCands prio cands).take (topN * 2))).length ≤
      (((sortCands prio cands).take (topN * 2)).map (fun c => c.1.code)).dedup.length := by
  refine ⟨(selectLoop_codes_nodup groupKey topN [] _).1, ?_, selectLoop_sublist groupKey topN [] _, ?_⟩
  · rcases Nat.eq_zero_or_pos topN with h0 | hpos
    · subst h0
      simp [selectLoop]
    · simpa using selectLoop_length groupKey topN [] _ (by simpa using hpos)
  · have hsub : List.Sublist
        ((selectLoop groupKey topN [] ((sortCands prio cands).take (topN * 2))).map MatchRes.kod)
        ((((sortCands prio cands).take (topN * 2)).map (mkRes groupKey)).map MatchRes.kod) :=
      (selectLoop_sublist groupKey topN [] _).map _
    rw [List.map_map] at hsub
    have hsubset : (selectLoop groupKey topN [] ((sortCands prio cands).take (topN * 2))).map
        MatchRes.kod ⊆ (((sortCands prio cands).take (topN * 2)).map
          (fun c => c.1.code)).dedup := by
      intro x hx
      rw [List.mem_dedup]
      exact hsub.subset hx
    have := ((selectLoop_codes_nodup groupKey topN [] _).1.subperm hsubset).length_le
    simpa using this

/-- Helper: a left fold of `min` bounds its seed and every element from
below. -/
theorem foldl_min_le (xs : List ℚ) :
    ∀ x : ℚ, xs.foldl min x ≤ x ∧ ∀ a ∈ xs, xs.foldl min x ≤ a := by
  induction xs with
  | nil => exact fun x => ⟨le_refl x, by simp⟩
  | cons y ys ih =>
    intro x
    simp only [List.foldl_cons]
    obtain ⟨h1, h2⟩ := ih (min x y)
    refine ⟨h1.trans (min_le_left x y), ?_⟩
    intro a ha
    rcases List.mem_cons.mp ha with rfl | ha'
    · exact h1.trans (min_le_right x a)
    · exact h2 a ha'

/-- Helper: a left fold of `max` bounds its seed and every element from
above. -/
theorem le_foldl_max (xs : List ℚ) :
    ∀ x : ℚ, x ≤ xs.foldl max x ∧ ∀ a ∈ xs, a ≤ xs.foldl max x := by
  induction xs with
  | nil => exact fun x => ⟨le_refl x, by simp⟩
  | cons y ys ih =>
    intro x
    simp only [List.foldl_cons]
    obtain ⟨h1, h2⟩ := ih (max x y)
    refine ⟨(le_max_left x y).trans h1, ?_⟩
    intro a ha
    rcases List.mem_cons.mp ha with rfl | ha'
    · exact (le_max_right x a).trans h1
    · exact h2 a ha'

/-- Helper: `listMin` is a lower bound of the list. -/
theorem listMin_le {scores : List ℚ} {a : ℚ} (ha : a ∈ scores) : listMin scores ≤ a := by
  cases scores with
  | nil => cases ha
  | cons x xs =>
    rcases List.mem_cons.mp ha with rfl | h
    · exact (foldl_min_le xs a).1
    · exact (foldl_min_le xs x).2 a h

/-- Helper: `listMax` is an upper bound of the list. -/
theorem le_listMax {scores : List ℚ} {a : ℚ} (ha : a ∈ scores) : a ≤ listMax scores := by
  cases scores with
  | nil => cases ha
  | cons x xs =>
    rcases List.mem_cons.mp ha with rfl | h
    · exact (le_foldl_max xs a).1
    · exact (le_foldl_max xs x).2 a h

/-- Helper: min-max normalization maps every score into `[0, 100]`. -/
theorem normalizeScores_bounds {scores : List ℚ} {x : ℚ}
    (hx : x ∈ normalizeScores scores) : 0 ≤ x ∧ x ≤ 100 := by
  unfold normalizeScores at hx
  by_cases heq : listMax scores = listMin scores
  · rw [if_pos heq] at hx
    by_cases hpos : 0 < listMax scores
    · rw [if_pos hpos] at hx
      rw [List.eq_of_mem_replicate hx]
      norm_num
    · rw [if_neg hpos] at hx
      rw [List.eq_of_mem_replicate hx]
      norm_num
  · rw [if_neg heq] at hx
    obtain ⟨s, hs, rfl⟩ := List.mem_map.mp hx
    have hlo := listMin_le hs
    have hhi := le_listMax hs
    have hlt : listMin scores < listMax scores :=
      lt_of_le_of_ne (hlo.trans hhi) (fun h => heq h.symm)
    have hq0 : 0 ≤ (s - listMin scores) / (listMax scores - listMin scores) :=
      div_nonneg (by linarith) (by linarith)
    have hq1 : (s - listMin scores) / (listMax scores - listMin scores) ≤ 1 :=
      (div_le_one (by linarith)).mpr (by linarith)
    constructor
    · exact mul_nonneg hq0 (by norm_num)
    · calc (s - listMin scores) / (listMax scores - listMin scores) * 100
          ≤ 1 * 100 := by
            exact mul_le_mul_of_nonneg_right hq1 (by norm_num)
      _ = 100 := by norm_num

/-- Helper: the prefix bonus keeps scores that are in `[0, 100]` inside
`[0, 100]`. -/
theorem adjustScores_bounds (joined : Str) :
    ∀ (normalized : List ℚ) (names : List Str),
      (∀ n ∈ normalized, 0 ≤ n ∧ n ≤ 100) →
      ∀ x ∈ adjustScores names joined normalized, 0 ≤ x ∧ x ≤ 100 := by
  intro normalized
  induction normalized with
  | nil => intro names _ x hx; simp [adjustScores] at hx
  | cons n norm ih =>
    intro names hbound x hx
    cases names with
    | nil => simp [adjustScores] at hx
    | cons name names =>
      simp only [adjustScores, List.zipWith_cons_cons] at hx
      rcases List.mem_cons.mp hx with rfl | htail
      · have hn := hbound n (List.mem_cons_self _ _)
        split
        · refine ⟨le_min (by linarith [hn.1]) (by norm_num), min_le_right _ _⟩
        · exact hn
      · exact ih names (fun m hm => hbound m (List.mem_cons_of_mem _ hm)) x htail

/-- C6: for every query and catalog entry, the similarity after min-max
normalization and the capped prefix bonus (lines 131-142) lies in the
closed interval `[0, 100]`. -/
theorem claim6_adjusted_in_range (processedNames : List Str) (joined : Str)
    (scores : List ℚ) :
    ∀ x ∈ adjustScores processedNames joined (normalizeScores scores),
      0 ≤ x ∧ x ≤ 100 :=
  adjustScores_bounds joined (normalizeScores scores) processedNames
    (fun _ hn => normalizeScores_bounds hn)

/-- C6 witness: the theorem applied to a one-entry corpus with score `1`
and a query that is not a prefix of the entry. -/
theorem claim6_adjusted_in_range_witness :
    0 ≤ (adjustScores ["a".data] "b".data (normalizeScores [(1 : ℚ)])).headI ∧
      (adjustScores ["a".data] "b".data (normalizeScores [(1 : ℚ)])).headI ≤ 100 :=
  claim6_adjusted_in_range ["a".data] "b".data [(1 : ℚ)] _ (List.Mem.head _)

instance : Inhabited MatchRes := ⟨⟨[], [], [], 0, []⟩⟩

/-- Catalog entry used by concrete witnesses: name "a", code "1", all
flags "Нет". -/
def sampleEntry : Entry :=
  { name := "a".data, code := "1".data, oformleno := "Нет".data,
    tovarProizvoditelya := "Нет".data, osnovnoyAssortiment := "Нет".data }

/-- Helper: with no query tokens, every BM25 score is the empty sum `0`. -/
theorem bm25GetScores_nil (contrib : Str → List Str → ℚ) (tokenized : List (List Str)) :
    bm25GetScores contrib tokenized [] = List.replicate tokenized.length 0 := by
  unfold bm25GetScores
  induction tokenized with
  | nil => rfl
  | cons doc docs ih => simp [List.replicate_succ, ih]

/-- Helper: folding `min` over copies of the seed returns the seed. -/
theorem foldl_min_replicate (x : ℚ) : ∀ n, (List.replicate n x).foldl min x = x
  | 0 => rfl
  | n + 1 => by
    simp only [List.replicate_succ, List.foldl_cons, min_self]
    exact foldl_min_replicate x n

/-- Helper: folding `max` over copies of the seed returns the seed. -/
theorem foldl_max_replicate (x : ℚ) : ∀ n, (List.replicate n x).foldl max x = x
  | 0 => rfl
  | n + 1 => by
    simp only [List.replicate_succ, List.foldl_cons, max_self]
    exact foldl_max_replicate x n

/-- Helper: all-zero scores normalize to all zeros (the `max > 0` branch is
not taken). -/
theorem normalizeScores_replicate_zero (n : Nat) :
    normalizeScores (List.replicate n (0 : ℚ)) = List.replicate n 0 := by
  cases n with
  | zero => rfl
  | succ n =>
    unfold normalizeScores listMin listMax
    simp only [List.replicate_succ, foldl_min_replicate, foldl_max_replicate]
    norm_num [List.replicate_succ]

/-- Helper: with an empty joined query, every entry gets the prefix bonus
on top of a zero score, so every adjusted score is exactly `5`. -/
theorem adjustScores_empty_query :
    ∀ (n : Nat) (names : List Str) (x : ℚ),
      x ∈ adjustScores names [] (List.replicate n (0 : ℚ)) → x = 5 := by
  intro n
  induction n with
  | zero => intro names x hx; simp [adjustScores] at hx
  | succ n ih =>
    intro names x hx
    cases names with
    | nil => simp [adjustScores] at hx
    | cons name names =>
      simp only [List.replicate_succ, adjustScores, List.zipWith_cons_cons] at hx
      rcases List.mem_cons.mp hx with rfl | h
      · rw [if_pos (List.isPrefixOf_iff_prefix.mpr (List.nil_prefix))]
        norm_num [min_def]
      · exact ih names x h

/-- C10: a query whose preprocessed text has no tokens scores `0` against
every entry, normalization keeps every score at `0` (the all-equal value is
not positive), the empty token join is a prefix of every name so every
entry receives the `+5` bonus, and therefore every result the group emits
has similarity exactly `5`. -/
theorem claim10_empty_query_similarity_five (contrib : Str → List Str → ℚ)
    (entries : List Entry) (prio : Entry → Str) (topN : Nat)
    (groupKey queryText : Str) (hne : entries ≠ [])
    (hq : splitWs (preprocess queryText) = []) :
    ∀ r ∈ groupBodyFromQuery contrib entries (entries.map fun e => preprocess e.name)
        ((entries.map fun e => preprocess e.name).map splitWs) prio topN groupKey queryText,
      r.skhodstvo = 5 := by
  intro r hr
  simp only [groupBodyFromQuery, hq, bm25GetScores_nil, List.length_map,
    normalizeScores_replicate_zero] at hr
  have hjoin : joinSep " ".data ([] : List Str) = [] := rfl
  rw [hjoin] at hr
  have hwin := (selectLoop_sublist groupKey topN [] _).subset hr
  obtain ⟨c, hc, rfl⟩ := List.mem_map.mp hwin
  have hsorted : c ∈ sortCands prio (entries.zip
      (adjustScores (entries.map fun e => preprocess e.name) []
        (List.replicate entries.length 0))) := List.take_subset _ _ hc
  have hzip : c ∈ entries.zip (adjustScores (entries.map fun e => preprocess e.name) []
      (List.replicate entries.length 0)) := by
    rw [sortCands, List.mem_insertionSort] at hsorted
    exact hsorted
  have hc2 : c.2 ∈ adjustScores (entries.map fun e => preprocess e.name) []
      (List.replicate entries.length 0) := by
    obtain ⟨a, b⟩ := c
    exact (List.of_mem_zip hzip).2
  exact adjustScores_empty_query entries.length _ c.2 hc2

/-- C10 witness: the theorem applied to a one-entry catalog and the
punctuation-only query "!", whose preprocessed text has no tokens. -/
theorem claim10_empty_query_similarity_five_witness :
    (List.headI (groupBodyFromQuery (fun _ _ => 1) [sampleEntry]
        ([sampleEntry].map (fun e => preprocess e.name))
        (([sampleEntry].map (fun e => preprocess e.name)).map splitWs)
        Entry.oformleno 1 "k".data "!".data)).skhodstvo = 5 :=
  claim10_empty_query_similarity_five (fun _ _ => 1) [sampleEntry] Entry.oformleno 1
    "k".data "!".data (by decide) (by decide) _ (List.Mem.head _)

/-- C7 counterexample: `preprocess_text` is not idempotent. On the input
"гогост" the first pass rewrites "гост" to "стандарт", producing
"гостандарт", in which the boundary between the untouched "го" and the
inserted "стандарт" forms a fresh occurrence of the key "гост"; the second
pass rewrites it again, giving "стандартандарт". -/
theorem claim7_not_idempotent :
    preprocess (preprocess "гогост".data) ≠ preprocess "гогост".data := by
  decide

/-- C9 counterexample: a whitespace-only input is not mapped to the empty
string. The filter of line 209 keeps whitespace characters, so
`preprocess_text(" ")` returns " ", not "". -/
theorem claim9_whitespace_not_emptied :
    (∀ c ∈ (" ".data : Str), pyIsSpace c = true) ∧ preprocess " ".data ≠ ([] : Str) := by
  decide

/-- Helper: a whitespace character is left unchanged by lowercasing and is
kept by the character filter. -/
theorem space_char_fixed {c : Char} (h : pyIsSpace c = true) :
    lowerChar c = c ∧ keepChar c = true := by
  have hc : ((((c = ' ' ∨ c = '\t') ∨ c = '\n') ∨ c = '\r') ∨ c = Char.ofNat 11) ∨
      c = Char.ofNat 12 := by
    simpa [pyIsSpace] using h
  rcases hc with ⟨⟨⟨⟨rfl | rfl⟩ | rfl⟩ | rfl⟩ | rfl⟩ | rfl <;> exact ⟨by decide, by decide⟩

/-- Helper: a map that fixes every element of a list fixes the list. -/
theorem map_eq_self_of_fixed {f : Char → Char} :
    ∀ {l : Str}, (∀ c ∈ l, f c = c) → l.map f = l := by
  intro l
  induction l with
  | nil => intro _; rfl
  | cons c rest ih =>
    intro h
    rw [List.map_cons, h c (List.mem_cons_self _ _),
      ih (fun d hd => h d (List.mem_cons_of_mem _ hd))]

/-- Helper: the replace scan for a key whose first character is not
whitespace leaves an all-whitespace string unchanged: the key can never
match. -/
theorem pyReplaceAux_all_space {o : Char} (os new : Str) (ho : pyIsSpace o = false) :
    ∀ (fuel : Nat) (s : Str), (∀ c ∈ s, pyIsSpace c = true) →
      pyReplaceAux (o :: os) new fuel s = s := by
  intro fuel
  induction fuel with
  | zero => intro s _; cases s <;> rfl
  | succ fuel ih =>
    intro s hs
    cases s with
    | nil => rfl
    | cons c rest =>
      rw [pyReplaceAux, if_neg, ih rest (fun d hd => hs d (List.mem_cons_of_mem _ hd))]
      intro hpre
      obtain ⟨t, ht⟩ := List.isPrefixOf_iff_prefix.mp hpre
      rw [List.cons_append] at ht
      have hoc : o = c := (List.cons.injEq _ _ _ _ ▸ ht).1
      rw [hoc, hs c (List.mem_cons_self _ _)] at ho
      exact absurd ho (by decide)

/-- Helper: `pyReplace` with a key starting with a non-whitespace
character fixes all-whitespace strings. -/
theorem pyReplace_all_space {o : Char} (os new : Str) (ho : pyIsSpace o = false)
    (s : Str) (hs : ∀ c ∈ s, pyIsSpace c = true) : pyReplace (o :: os) new s = s := by
  rw [pyReplace, if_neg (by simp)]
  exact pyReplaceAux_all_space os new ho _ s hs

/-- Helper: folding a replacement table whose keys all start with
non-whitespace characters over an all-whitespace string is the identity. -/
theorem foldl_replace_all_space :
    ∀ (tbl : List (Str × Str)) (s : Str),
      (∀ kv ∈ tbl, kv.1 ≠ [] ∧ pyIsSpace kv.1.headI = false) →
      (∀ c ∈ s, pyIsSpace c = true) →
      tbl.foldl (fun acc kv => pyReplace kv.1 kv.2 acc) s = s := by
  intro tbl
  induction tbl with
  | nil => intro s _ _; rfl
  | cons kv tbl ih =>
    intro s htbl hs
    obtain ⟨k, v⟩ := kv
    obtain ⟨hne, hhead⟩ := htbl (k, v) (List.mem_cons_self _ _)
    cases k with
    | nil => exact absurd rfl hne
    | cons o os =>
      simp only [List.foldl_cons]
      rw [pyReplace_all_space os v (by simpa using hhead) s hs]
      exact ih s (fun kv2 h2 => htbl kv2 (List.mem_cons_of_mem _ h2)) hs

/-- C9 (amended): the empty input maps to the empty string, but a
whitespace-only input is returned unchanged — the filter of line 209 keeps
whitespace, lowercasing does not touch it, and no abbreviation key (each
starts with a Cyrillic letter) can match inside it; so the output is empty
only when the input is. -/
theorem claim9_amended_whitespace_preserved :
    preprocess ([] : Str) = [] ∧
      ∀ s : Str, (∀ c ∈ s, pyIsSpace c = true) → preprocess s = s := by
  refine ⟨by decide, ?_⟩
  intro s hs
  unfold preprocess
  rw [map_eq_self_of_fixed (fun c hc => (space_char_fixed (hs c hc)).1),
    List.filter_eq_self.mpr (fun c hc => (space_char_fixed (hs c hc)).2)]
  exact foldl_replace_all_space replacements s (by decide) hs

/-- C9 witness: the amended theorem applied to the two-space input. -/
theorem claim9_amended_whitespace_witness :
    preprocess "  ".data = "  ".data :=
  claim9_amended_whitespace_preserved.2 "  ".data (by decide)

/-- Helper: a successful association-list lookup returns a stored pair. -/
theorem lookup_mem_of_eq_some {l : List (Char × Char)} {k v : Char}
    (h : l.lookup k = some v) : (k, v) ∈ l := by
  induction l with
  | nil => cases h
  | cons p ps ih =>
    obtain ⟨a, b⟩ := p
    rw [List.lookup] at h
    split at h
    · rename_i heq
      injection h with h'
      subst h'
      have hk : k = a := by simpa using heq
      subst hk
      exact List.mem_cons_self _ _
    · exact List.mem_cons_of_mem _ (ih h)

/-- Helper: lowercasing is idempotent: no lowercase image appears among the
uppercase keys of the lowering table. -/
theorem lowerChar_idem (c : Char) : lowerChar (lowerChar c) = lowerChar c := by
  rcases h : lowerPairs.lookup c with _ | v
  · simp [lowerChar, h]
  · have hv : (c, v) ∈ lowerPairs := lookup_mem_of_eq_some h
    have hnone : ∀ p ∈ lowerPairs, lowerPairs.lookup p.2 = none := by decide
    simp [lowerChar, h, hnone (c, v) hv]

/-- Helper: every character of the replace scan's output comes from the
input or from the replacement text. -/
theorem mem_pyReplaceAux (old new : Str) :
    ∀ (fuel : Nat) (s : Str) (c : Char),
      c ∈ pyReplaceAux old new fuel s → c ∈ s ∨ c ∈ new := by
  intro fuel
  induction fuel with
  | zero =>
    intro s c hc
    cases s with
    | nil => cases hc
    | cons a rest => exact Or.inl hc
  | succ fuel ih =>
    intro s c hc
    cases s with
    | nil => cases hc
    | cons a rest =>
      rw [pyReplaceAux] at hc
      split at hc
      · rcases List.mem_append.mp hc with h | h
        · exact Or.inr h
        · rcases ih _ c h with h' | h'
          · exact Or.inl (List.mem_cons_of_mem _ (List.mem_of_mem_drop h'))
          · exact Or.inr h'
      · rcases List.mem_cons.mp hc with rfl | h
        · exact Or.inl (List.mem_cons_self _ _)
        · rcases ih rest c h with h' | h'
          · exact Or.inl (List.mem_cons_of_mem _ h')
          · exact Or.inr h'

/-- Helper: every character of `pyReplace`'s output comes from the input or
from the replacement text. -/
theorem mem_pyReplace {old new s : Str} {c : Char}
    (hc : c ∈ pyReplace old new s) : c ∈ s ∨ c ∈ new := by
  rw [pyReplace] at hc
  split at hc
  · exact Or.inl hc
  · exact mem_pyReplaceAux old new s.length s c hc

/-- Helper: every character of a folded replacement pass comes from the
input or from one of the table's replacement values. -/
theorem mem_foldl_replace :
    ∀ (tbl : List (Str × Str)) (s : Str) (c : Char),
      c ∈ tbl.foldl (fun acc kv => pyReplace kv.1 kv.2 acc) s →
      c ∈ s ∨ ∃ kv ∈ tbl, c ∈ kv.2 := by
  intro tbl
  induction tbl with
  | nil => intro s c hc; exact Or.inl hc
  | cons kv tbl ih =>
    intro s c hc
    simp only [List.foldl_cons] at hc
    rcases ih _ c hc with h | ⟨kv2, h2, hc2⟩
    · rcases mem_pyReplace h with h' | h'
      · exact Or.inl h'
      · exact Or.inr ⟨kv, List.mem_cons_self _ _, h'⟩
    · exact Or.inr ⟨kv2, List.mem_cons_of_mem _ h2, hc2⟩

/-- Helper: every character of a preprocessed string is fixed by
lowercasing and kept by the filter — it either survived the
lowercase-and-filter stage or was introduced by a replacement value, and
the table's values are all lowercase alphanumerics and spaces. -/
theorem preprocess_chars_good {s : Str} {c : Char} (hc : c ∈ preprocess s) :
    lowerChar c = c ∧ keepChar c = true := by
  unfold preprocess applyReplacements at hc
  rcases mem_foldl_replace replacements _ c hc with h | ⟨kv, hkv, hcv⟩
  · have hk := List.of_mem_filter h
    have hm := List.mem_filter.mp h
    obtain ⟨a, _, rfl⟩ := List.mem_map.mp hm.1
    exact ⟨lowerChar_idem a, hk⟩
  · have hval : ∀ kv ∈ replacements, ∀ d ∈ kv.2,
        lowerChar d = d ∧ keepChar d = true := by decide
    exact hval kv hkv c hcv

/-- C7 (amended): `preprocess_text` is not idempotent in general (see the
counterexample "гогост": an ordered substring replacement can recreate a
table key across a replacement boundary). What does hold is that the
lowercasing and filtering stages are idempotent — the output of
`preprocess_text` consists only of lowercase-fixed, kept characters — so a
second application of `preprocess_text` reduces exactly to a second pass of
the abbreviation table over the first output. -/
theorem claim7_amended_second_pass (s : Str) :
    preprocess (preprocess s) = applyReplacements (preprocess s) := by
  conv_lhs => rw [preprocess]
  rw [map_eq_self_of_fixed (fun c hc => (preprocess_chars_good hc).1),
    List.filter_eq_self.mpr (fun c hc => (preprocess_chars_good hc).2)]

/-- Helper: the first index of the head is `0`. -/
theorem firstIdx_cons_self (a : Str) (l : List Str) : firstIdx a (a :: l) = 0 := by
  simp [firstIdx]

/-- Helper: the first index past a different head is one more. -/
theorem firstIdx_cons_ne {a b : Str} (h : a ≠ b) (l : List Str) :
    firstIdx a (b :: l) = firstIdx a l + 1 := by
  simp [firstIdx, h]

/-- Helper: on members of the list, the first index is injective. -/
theorem firstIdx_inj {l : List Str} {a b : Str} (ha : a ∈ l) (hb : b ∈ l)
    (h : firstIdx a l = firstIdx b l) : a = b := by
  induction l with
  | nil => cases ha
  | cons c rest ih =>
    by_cases hac : a = c
    · by_cases hbc : b = c
      · rw [hac, hbc]
      · rw [hac, firstIdx_cons_self, firstIdx_cons_ne hbc] at h
        cases h
    · by_cases hbc : b = c
      · rw [hbc, firstIdx_cons_self, firstIdx_cons_ne hac] at h
        cases h
      · rw [firstIdx_cons_ne hac, firstIdx_cons_ne hbc] at h
        exact ih (List.mem_of_ne_of_mem hac ha) (List.mem_of_ne_of_mem hbc hb)
          (Nat.succ_injective h)

/-- Helper: members of the deduplication come from the list and avoid the
accumulator. -/
theorem mem_dedupFirstAux {α : Type} [DecidableEq α] :
    ∀ (l seen : List α) (x : α), x ∈ dedupFirstAux seen l → x ∈ l ∧ x ∉ seen := by
  intro l
  induction l with
  | nil => intro seen x hx; cases hx
  | cons a rest ih =>
    intro seen x hx
    rw [dedupFirstAux] at hx
    split at hx
    · obtain ⟨h1, h2⟩ := ih seen x hx
      exact ⟨List.mem_cons_of_mem _ h1, h2⟩
    · rename_i hnot
      rcases List.mem_cons.mp hx with rfl | h
      · exact ⟨List.mem_cons_self _ _, hnot⟩
      · obtain ⟨h1, h2⟩ := ih _ x h
        exact ⟨List.mem_cons_of_mem _ h1,
          fun hs => h2 (List.mem_cons_of_mem _ hs)⟩

/-- Helper: first-occurrence deduplication has no duplicates. -/
theorem nodup_dedupFirstAux {α : Type} [DecidableEq α] :
    ∀ (l seen : List α), (dedupFirstAux seen l).Nodup := by
  intro l
  induction l with
  | nil => intro seen; simp [dedupFirstAux]
  | cons a rest ih =>
    intro seen
    rw [dedupFirstAux]
    split
    · exact ih seen
    · rw [List.nodup_cons]
      exact ⟨fun hmem =>
        (mem_dedupFirstAux rest (a :: seen) a hmem).2 (List.mem_cons_self _ _),
        ih (a :: seen)⟩

/-- Helper: first-occurrence deduplication lists its elements in strictly
increasing order of first index in the original list. -/
theorem pairwise_indexOf_dedupFirstAux :
    ∀ (l seen : List Str),
      (dedupFirstAux seen l).Pairwise (fun a b => firstIdx a l < firstIdx b l) := by
  intro l
  induction l with
  | nil => intro seen; simp [dedupFirstAux]
  | cons x rest ih =>
    intro seen
    rw [dedupFirstAux]
    split
    · rename_i hin
      refine (ih seen).imp_of_mem ?_
      intro a b ha hb hab
      have hax : a ≠ x := fun h =>
        (mem_dedupFirstAux rest seen a ha).2 (h ▸ hin)
      have hbx : b ≠ x := fun h =>
        (mem_dedupFirstAux rest seen b hb).2 (h ▸ hin)
      rw [firstIdx_cons_ne hax, firstIdx_cons_ne hbx]
      exact Nat.succ_lt_succ hab
    · rw [List.pairwise_cons]
      constructor
      · intro b hb
        have hbx : b ≠ x := fun h =>
          (mem_dedupFirstAux rest (x :: seen) b hb).2 (h ▸ List.mem_cons_self _ _)
        rw [firstIdx_cons_self, firstIdx_cons_ne hbx]
        exact Nat.succ_pos _
      · refine (ih (x :: seen)).imp_of_mem ?_
        intro a b ha hb hab
        have hax : a ≠ x := fun h =>
          (mem_dedupFirstAux rest (x :: seen) a ha).2 (h ▸ List.mem_cons_self _ _)
        have hbx : b ≠ x := fun h =>
          (mem_dedupFirstAux rest (x :: seen) b hb).2 (h ▸ List.mem_cons_self _ _)
        rw [firstIdx_cons_ne hax, firstIdx_cons_ne hbx]
        exact Nat.succ_lt_succ hab

/-- Helper: sorting distinct strings drawn from `parts` by first index
yields a strictly increasing sequence of first indices. -/
theorem pairwise_indexOf_pySortedByIndex (parts elems : List Str)
    (hnd : elems.Nodup) (hmem : ∀ x ∈ elems, x ∈ parts) :
    (pySortedByIndex parts elems).Pairwise
      (fun a b => firstIdx a parts < firstIdx b parts) := by
  haveI htot : IsTotal Str (idxLe parts) := ⟨fun a b => Nat.le_total _ _⟩
  haveI htrans : IsTrans Str (idxLe parts) := ⟨fun a b c => Nat.le_trans⟩
  have hs : List.Sorted (idxLe parts) (pySortedByIndex parts elems) :=
    List.sorted_insertionSort _ _
  have hnd' : (pySortedByIndex parts elems).Nodup :=
    (List.perm_insertionSort _ _).symm.nodup hnd
  have hcomb := hs.and hnd'
  refine hcomb.imp_of_mem ?_
  intro a b ha hb hab
  have ha' : a ∈ parts := hmem a ((List.perm_insertionSort _ _).mem_iff.mp ha)
  have hb' : b ∈ parts := hmem b ((List.perm_insertionSort _ _).mem_iff.mp hb)
  exact Nat.lt_of_le_of_ne hab.1 (fun h => hab.2 (firstIdx_inj ha' hb' h))

/-- Helper: the Python expression `sorted(set(parts), key=parts.index)`
equals the first-occurrence deduplication of `parts`, for every enumeration
`setElems` of the set — the sort keys (first indices) are distinct, so the
sorted order is unique and independent of the set's iteration order. -/
theorem pySortedByIndex_eq_dedupFirst (parts setElems : List Str)
    (hperm : setElems.Perm (dedupFirst parts)) :
    pySortedByIndex parts setElems = dedupFirst parts := by
  have hd_nodup : (dedupFirst parts).Nodup := nodup_dedupFirstAux parts []
  have hd_pw : (dedupFirst parts).Pairwise
      (fun a b => firstIdx a parts < firstIdx b parts) :=
    pairwise_indexOf_dedupFirstAux parts []
  have hnd : setElems.Nodup := hperm.symm.nodup hd_nodup
  have hmem : ∀ x ∈ setElems, x ∈ parts := fun x hx =>
    (mem_dedupFirstAux parts [] x (hperm.mem_iff.mp hx)).1
  have hpw := pairwise_indexOf_pySortedByIndex parts setElems hnd hmem
  have hperm2 : (pySortedByIndex parts setElems).Perm (dedupFirst parts) :=
    (List.perm_insertionSort _ _).trans hperm
  haveI : IsAntisymm Str (fun a b => firstIdx a parts < firstIdx b parts) :=
    ⟨fun a b h1 h2 => absurd h2 (Nat.lt_asymm h1)⟩
  exact List.eq_of_perm_of_sorted hperm2 hpw hd_pw

/-- C8: the group's query text of line 126 is the group's non-missing
selected-column values (`collectParts`, rows in order, columns in order),
deduplicated keeping first-occurrence order, joined with single spaces —
whatever order Python's `set` happens to enumerate the distinct values in,
the `key=query_parts.index` sort restores first-occurrence order. -/
theorem claim8_grouped_query (groupRows : List Row) (setElems : List Str)
    (hperm : setElems.Perm (dedupFirst (collectParts groupRows))) :
    joinSep " ".data (pySortedByIndex (collectParts groupRows) setElems) =
      joinSep " ".data (dedupFirst (collectParts groupRows)) := by
  rw [pySortedByIndex_eq_dedupFirst _ _ hperm]

/-- C8 witness: rows with values ["A", "B"] and ["B", "C"], with the set
enumerated in the scrambled order ["B", "C", "A"], still produce the query
"A B C". -/
theorem claim8_grouped_query_witness :
    joinSep " ".data (pySortedByIndex
        (collectParts [[some "A".data, some "B".data], [some "B".data, some "C".data]])
        ["B".data, "C".data, "A".data]) = "A B C".data :=
  (claim8_grouped_query [[some "A".data, some "B".data], [some "B".data, some "C".data]]
      ["B".data, "C".data, "A".data] (by decide)).trans (by decide)

end AutoMatcher
